import Mathlib

/-!
Shallow embedding of the `dumpsc.py` asset extractor: the positional byte
reader, the decompression router, the pixel decoder, the 32x32 block
deswizzler, the SC chunk walker and the top-level per-file loop.  External
library primitives (LZMA / LZHAM / Zstandard decoders and the MD5 hash) are
passed in as oracle functions; calls that leave the core (texture decoding,
file writing) are recorded as events.
-/

/-- Error kinds raised by the embedded code (Python exceptions). -/
inductive Err where
  | unknownHeader
  | indexError
  | lzmaProperties
  | valueError
  | unknownSubType (subType : Nat)
  | decodeFail (algo : String)
  | outOfFuel
  deriving DecidableEq, Repr

/-- `int.from_bytes(l, "little")`: little-endian byte list to Nat. -/
def fromBytesLE : List Nat → Nat
  | [] => 0
  | b :: rest => b + 256 * fromBytesLE rest

/-- `int.from_bytes(l, "big")`: big-endian byte list to Nat. -/
def fromBytesBE (l : List Nat) : Nat :=
  l.foldl (fun acc b => acc * 256 + b) 0

/-- `int.from_bytes(l, "little", signed=True)`. -/
def fromBytesLEsigned (l : List Nat) : Int :=
  let v := fromBytesLE l
  if v < 2 ^ (8 * l.length - 1) then (v : Int) else (v : Int) - 2 ^ (8 * l.length)

/-- The `Reader` class: an `io.BytesIO` (byte list plus position) together
with the `_bytes_left` and `_bytes_read` counters maintained by the
subclass.  `_bytes_left` is decremented by the requested size, not by the
number of bytes actually delivered, so it can go negative. -/
structure Reader where
  data : List Nat
  pos : Nat
  bytesLeft : Int
  bytesRead : Int
  deriving DecidableEq, Repr

/-- `Reader.__init__`. -/
def Reader.ofBytes (stream : List Nat) : Reader :=
  ⟨stream, 0, (stream.length : Int), 0⟩

/-- `Reader.__len__`: clamps the (possibly negative) counter at zero. -/
def Reader.len (r : Reader) : Nat :=
  if r.bytesLeft < 0 then 0 else r.bytesLeft.toNat

/-- `Reader.read(size)`.  `size == -1` (and, as in `io.BytesIO`, any other
negative size) delivers everything from the current position; otherwise the
underlying `BytesIO.read` delivers at most `size` bytes while the counters
move by exactly `size`. -/
def Reader.read (r : Reader) (size : Int) : List Nat × Reader :=
  if size = -1 then
    (r.data.drop r.pos, ⟨r.data, r.data.length, 0, r.bytesRead + r.bytesLeft⟩)
  else if size < 0 then
    (r.data.drop r.pos,
      ⟨r.data, r.data.length, r.bytesLeft - size, r.bytesRead + size⟩)
  else
    let ret := (r.data.drop r.pos).take size.toNat
    (ret, ⟨r.data, r.pos + ret.length, r.bytesLeft - size, r.bytesRead + size⟩)

/-- `Reader.read_byte()`. -/
def Reader.read_byte (r : Reader) : Nat × Reader :=
  (fromBytesLE (r.read 1).1, (r.read 1).2)

/-- `Reader.read_uint16()` (little-endian default). -/
def Reader.read_uint16le (r : Reader) : Nat × Reader :=
  (fromBytesLE (r.read 2).1, (r.read 2).2)

/-- `Reader.read_int32()` (little-endian default, signed). -/
def Reader.read_int32le (r : Reader) : Int × Reader :=
  (fromBytesLEsigned (r.read 4).1, (r.read 4).2)

/-- `Reader.read_uint32()` (little-endian default). -/
def Reader.read_uint32le (r : Reader) : Nat × Reader :=
  (fromBytesLE (r.read 4).1, (r.read 4).2)

/-- `Reader.read_uint32(byteorder="big")`. -/
def Reader.read_uint32be (r : Reader) : Nat × Reader :=
  (fromBytesBE (r.read 4).1, (r.read 4).2)

/-- `Reader.read_uint64()` (little-endian default). -/
def Reader.read_uint64le (r : Reader) : Nat × Reader :=
  (fromBytesLE (r.read 8).1, (r.read 8).2)

/-- `Reader.read_string()`: 1-byte length then that many bytes.  The bytes
are kept raw here; UTF-8 decoding happens outside the parsing core. -/
def Reader.read_string (r : Reader) : List Nat × Reader :=
  let n := r.read_byte
  ((n.2.read (n.1 : Int)).1, (n.2.read (n.1 : Int)).2)

/-- `Reader.align_to(alignment)`. -/
def Reader.align_to (r : Reader) (alignment : Int) : Reader :=
  let remainder := alignment - (r.bytesRead % alignment)
  (r.read (if remainder ≠ alignment then remainder else 0)).2

/-- The reader's counters agree with the underlying buffer: the position is
in bounds and `_bytes_left` equals the bytes actually remaining. -/
def Reader.Consistent (r : Reader) : Prop :=
  r.pos ≤ r.data.length ∧ r.bytesLeft = (r.data.length : Int) - (r.pos : Int)

instance (r : Reader) : Decidable r.Consistent := by
  unfold Reader.Consistent; infer_instance

/-- External primitives: the three decompression libraries and `hashlib.md5`. -/
structure ExtLib where
  lzham : Nat → Nat → List Nat → Except Err (List Nat)
  zstd : List Nat → Except Err (List Nat)
  lzma : List Nat → Except Err (List Nat)
  md5 : List Nat → List Nat

/-- A trivially succeeding set of external primitives. -/
def defaultExt : ExtLib :=
  { lzham := fun _ _ _ => .ok [], zstd := fun _ => .ok [],
    lzma := fun _ => .ok [], md5 := fun _ => [] }

/-- `b"SCLZ"`. -/
def sclzMagic : List Nat := [0x53, 0x43, 0x4C, 0x5A]

/-- `zstandard.FRAME_HEADER`. -/
def zstdMagic : List Nat := [0x28, 0xB5, 0x2F, 0xFD]

/-- `decompress(data)`: routes on the payload magic.  For the LZMA branch
four zero bytes are spliced in after byte index 9 and the first properties
byte is validated against `(4 * 5 + 4) * 9 + 8`. -/
def decompress (ext : ExtLib) (data : List Nat) : Except Err (List Nat) :=
  if data.take 4 = sclzMagic then
    let dict_size := fromBytesBE ((data.drop 4).take 1)
    let uncompressed_size := fromBytesLE ((data.drop 5).take 4)
    ext.lzham dict_size uncompressed_size (data.drop 9)
  else if data.take 4 = zstdMagic then
    ext.zstd data
  else
    let data2 := data.take 9 ++ [0, 0, 0, 0] ++ data.drop 9
    let prop := data2.headD 0
    if prop > (4 * 5 + 4) * 9 + 8 then .error .lzmaProperties
    else ext.lzma data2

/-- Result of `create_image`: either a captured call into the external
imaging library's raw decoder (`Image.frombytes`), or an image built pixel
by pixel by the pure Python loops of sub-types 2 and 4. -/
inductive PixImage where
  | raw (mode : String) (width height : Nat) (pixels : List Nat)
      (decoderArgs : List String)
  | loopRGBA (width height : Nat) (px : List (Nat × Nat × Nat × Nat))
  | loopRGB (width height : Nat) (px : List (Nat × Nat × Nat))
  deriving DecidableEq, Repr

/-- `create_image(width, height, pixels, sub_type)`.  Note that no branch
checks the buffer length: the sub-type 2 and 4 loops read two-byte slices
that may be short or empty (decoding as zero), and the remaining sub-types
hand the buffer to the external imaging library unchecked. -/
def create_image (width height : Nat) (pixels : List Nat) (sub_type : Nat) :
    Except Err PixImage :=
  if sub_type = 0 ∨ sub_type = 1 then
    .ok (.raw "RGBA" width height pixels ["raw"])
  else if sub_type = 2 then
    .ok (.loopRGBA width height
      ((List.range height).flatMap fun h =>
        (List.range width).map fun w =>
          let i := (w + h * width) * 2
          let p := fromBytesLE ((pixels.drop i).take 2)
          (((p >>> 12) &&& 0xF) <<< 4, ((p >>> 8) &&& 0xF) <<< 4,
           ((p >>> 4) &&& 0xF) <<< 4, ((p >>> 0) &&& 0xF) <<< 4)))
  else if sub_type = 3 then
    .ok (.raw "RGBA" width height pixels ["raw", "RGBA;4B"])
  else if sub_type = 4 then
    .ok (.loopRGB width height
      ((List.range height).flatMap fun h =>
        (List.range width).map fun w =>
          let i := (w + h * width) * 2
          let p := fromBytesLE ((pixels.drop i).take 2)
          (((p >>> 11) &&& 0x1F) <<< 3, ((p >>> 5) &&& 0x3F) <<< 2,
           (p &&& 0x1F) <<< 3)))
  else if sub_type = 6 then
    .ok (.raw "LA" width height pixels [])
  else if sub_type = 10 then
    .ok (.raw "L" width height pixels [])
  else
    .error (.unknownSubType sub_type)

/-- `pixel_size(sub_type)`: bytes per pixel. -/
def pixel_size (sub_type : Nat) : Except Err Nat :=
  if sub_type ∈ [0, 1] then .ok 4
  else if sub_type ∈ [2, 3, 4, 6] then .ok 2
  else if sub_type ∈ [10] then .ok 1
  else .error (.unknownSubType sub_type)

/-- The super-block origins `range(0, limit, 32)`. -/
def blockStarts (limit : Nat) : List Nat :=
  (List.range ((limit + 31) / 32)).map (fun i => i * 32)

/-- The rows `range(b, min(b + 32, limit))` of one super-block. -/
def rowsOf (b limit : Nat) : List Nat :=
  (List.range (min (b + 32) limit - b)).map (fun k => b + k)

/-- The destination runs of the deswizzle loops of `process_sc` (tags 27 and
28), in iteration order: for every super-block origin, for every row, the
pair `(destination index, run length)` with destination
`(_w + h * width) * pixel_sz` and length `min(32, width - _w) * pixel_sz`. -/
def segs (width height bpp : Nat) : List (Nat × Nat) :=
  (blockStarts height).flatMap fun bh =>
    (blockStarts width).flatMap fun bw =>
      (rowsOf bh height).map fun y =>
        ((bw + y * width) * bpp, min 32 (width - bw) * bpp)

/-- `pixels[i : i + sz] = chunk`: overwrite `chunk.length` bytes of the
buffer at offset `i`. -/
def writeRun (buf : Nat → Nat) (i : Nat) (chunk : List Nat) : Nat → Nat :=
  fun j => if i ≤ j ∧ j < i + chunk.length then chunk.getD (j - i) 0 else buf j

/-- The deswizzle loops: read each run from the reader and place it at its
destination offset. -/
def runReads : List (Nat × Nat) → Reader → (Nat → Nat) → ((Nat → Nat) × Reader)
  | [], r, buf => (buf, r)
  | sg :: rest, r, buf =>
    let c := r.read (sg.2 : Int)
    runReads rest c.2 (writeRun buf sg.1 c.1)

/-- The same runs fed from a plain cursor list instead of a reader. -/
def runWrites : List (Nat × Nat) → List Nat → (Nat → Nat) → (Nat → Nat)
  | [], _, buf => buf
  | sg :: rest, cur, buf =>
    runWrites rest (cur.drop sg.2) (writeRun buf sg.1 (cur.take sg.2))

/-- The deswizzler of `process_sc` as a function on a pixel buffer: runs are
taken in order from the input and placed block-major into a zeroed buffer of
`width * height * bpp` bytes. -/
def deswizzle (width height bpp : Nat) (input : List Nat) : List Nat :=
  (List.range (width * height * bpp)).map
    (runReads (segs width height bpp) (Reader.ofBytes input) (fun _ => 0)).1

/-- Modelled from the spec: the reswizzle that inverts the deswizzler (the
source only decodes).  It extracts the same runs, in the same iteration
order, from a row-major buffer and concatenates them. -/
def reswizzle (width height bpp : Nat) (buf : List Nat) : List Nat :=
  (segs width height bpp).flatMap fun sg => (buf.drop sg.1).take sg.2

/-- The calls `process_sc` makes outside the chunk-walking loop proper:
log lines, captured external calls and saved images. -/
inductive Event where
  | unknownTag (tag : Nat)
  | matrix (entries : List Int)
  | opaqueChunk (tag : Nat) (body : List Nat)
  | ktx (blob : List Nat)
  | sctxFile (fileName : List Nat)
  | save (index : Nat) (img : PixImage)
  deriving DecidableEq, Repr

/-- State of the chunk-walking loop of `process_sc`. -/
structure SCState where
  reader : Reader
  count : Nat
  events : List Event
  deriving DecidableEq, Repr

/-- `[reader.read_int32() for _ in range(n)]`. -/
def readInt32s : Nat → Reader → (List Int × Reader)
  | 0, r => ([], r)
  | n + 1, r =>
    let v := r.read_int32le
    let rest := readInt32s n v.2
    (v.1 :: rest.1, rest.2)

/-- The recognized chunk tag set of `process_sc`. -/
def recognizedTags : List Nat := [1, 8, 12, 24, 27, 28, 45, 47, 49]

/-- The dispatch part of one iteration of the `while len(reader)` loop of
`process_sc`, after `file_type` (`tb`) and `file_size` (`size0`) have been
read (`r2` is the reader right after those two reads).  Tags 45 and 47 fall
through the 5-byte `(sub_type, width, height)` header reads before their
`elif` branches run, exactly as in the source. -/
def stepBody (tb size0 : Nat) (r2 : Reader) (s : SCState) : Except Err SCState :=
  if size0 = 0 then .ok { s with reader := r2 }
  else if tb ∉ recognizedTags then
    .ok { s with reader := (r2.read (size0 : Int)).2,
                 events := s.events ++ [.unknownTag tb] }
  else if tb = 8 then
    let m := readInt32s 6 r2
    .ok { s with reader := m.2, events := s.events ++ [.matrix m.1] }
  else if tb = 12 then
    let body := r2.read (size0 : Int)
    .ok { s with reader := body.2,
                 events := s.events ++ [.opaqueChunk 12 body.1] }
  else
    let fileSize := if tb = 45 then (r2.read_uint32le).1 else size0
    let r3 := if tb = 45 then (r2.read_uint32le).2 else r2
    let fname := if tb = 47 then (r3.read_string).1 else []
    let r4 := if tb = 47 then (r3.read_string).2 else r3
    if tb = 49 then
      let body := r4.read (fileSize : Int)
      .ok { s with reader := body.2,
                   events := s.events ++ [.opaqueChunk 49 body.1] }
    else
      let subType := (r4.read_byte).1
      let r5 := (r4.read_byte).2
      let width := (r5.read_uint16le).1
      let r6 := (r5.read_uint16le).2
      let height := (r6.read_uint16le).1
      let r7 := (r6.read_uint16le).2
      if tb = 27 ∨ tb = 28 then
        match pixel_size subType with
        | .error e => .error e
        | .ok psz =>
          if (fileSize : Int) - 5 < 0 then .error .valueError
          else
            let run := runReads (segs width height psz) r7 (fun _ => 0)
            let pixels := (List.range (fileSize - 5)).map run.1
            match create_image width height pixels subType with
            | .error e => .error e
            | .ok img =>
              .ok ⟨run.2, s.count + 1, s.events ++ [.save s.count img]⟩
      else if tb = 45 then
        let blob := r7.read (-1)
        .ok { s with reader := blob.2, events := s.events ++ [.ktx blob.1] }
      else if tb = 47 then
        .ok { s with reader := r7, events := s.events ++ [.sctxFile fname] }
      else
        let px := r7.read ((fileSize : Int) - 5)
        match create_image width height px.1 subType with
        | .error e => .error e
        | .ok img =>
          .ok ⟨px.2, s.count + 1, s.events ++ [.save s.count img]⟩

/-- One iteration of the `while len(reader)` loop of `process_sc`: read a
tag byte and a 4-byte little-endian size, then dispatch via `stepBody`. -/
def step (s : SCState) : Except Err SCState :=
  stepBody (s.reader.read_byte).1 (((s.reader.read_byte).2).read_uint32le).1
    (((s.reader.read_byte).2).read_uint32le).2 s

/-- The `while len(reader)` loop, with explicit fuel: `none` means the fuel
ran out before the loop condition became false. -/
def walkAux : Nat → SCState → Except Err (Option SCState)
  | 0, s => if s.reader.len = 0 then .ok (some s) else .ok none
  | fuel + 1, s =>
    if s.reader.len = 0 then .ok (some s)
    else
      match step s with
      | .error e => .error e
      | .ok s' => walkAux fuel s'

/-- Skip `count` length-prefixed strings (old dictionary prologue). -/
def skipStrings : Nat → Reader → Reader
  | 0, r => r
  | n + 1, r => skipStrings n (r.read_string).2

/-- The `--old` prologue of `process_sc`: skip 17 bytes, read a 2-byte
count, skip `2 * count` bytes, then skip `count` strings. -/
def oldPrologue (r : Reader) : Reader :=
  let r1 := (r.read 17).2
  let cnt := r1.read_uint16le
  let r2 := (cnt.2.read ((cnt.1 * 2 : Nat) : Int)).2
  skipStrings cnt.1 r2

/-- Result of `process_sc`: whether the MD5 comparison failed (the
"File seems corrupted" log line) and the walk's outputs. -/
structure SCResult where
  corrupted : Bool
  events : List Event
  count : Nat
  deriving DecidableEq, Repr

/-- `process_sc`: outer SC header (big-endian fields), decompression of the
remainder, unconditional MD5 comparison, then the chunk walk over the
decompressed stream.  The fuel handed to `walkAux` is the initial remaining
length, which suffices (the walk consumes at least one byte of budget per
iteration), so `outOfFuel` is unreachable. -/
def processSc (ext : ExtLib) (old : Bool) (data : List Nat) :
    Except Err SCResult := do
  let r0 := Reader.ofBytes data
  let r1 := (r0.read 2).2
  let r2 := (r1.read_uint32be).2
  let r3 := (r2.read_uint32be).2
  let hashLen := (r3.read_uint32be).1
  let r4 := (r3.read_uint32be).2
  let md5Hash := (r4.read (hashLen : Int)).1
  let r5 := (r4.read (hashLen : Int)).2
  let payload := (r5.read (-1)).1
  let decompressed ← decompress ext payload
  let corrupted := decide (ext.md5 decompressed ≠ md5Hash)
  let rd := Reader.ofBytes decompressed
  let rd := if old then oldPrologue rd else rd
  let s0 : SCState := ⟨rd, 0, []⟩
  match walkAux s0.reader.len s0 with
  | .error e => .error e
  | .ok none => .error .outOfFuel
  | .ok (some s) => .ok ⟨corrupted, s.events, s.count⟩

/-- `check_header(data)`: classify a file by its magic bytes.  `data[0]` on
an empty input raises `IndexError` in the source. -/
def check_header (data : List Nat) : Except Err String :=
  match data with
  | [] => .error .indexError
  | b :: _ =>
    if b = 0x5D then .ok "csv"
    else if data.take 2 = [0x53, 0x43] then .ok "sc"
    else if data.take 4 = [0x53, 0x69, 0x67, 0x3A] then .ok "sig:"
    else if data.take 5 = [0xAB, 0x4B, 0x54, 0x58, 0x20] then .ok "ktx"
    else if (data.drop 8).take 4 = [0x53, 0x43, 0x54, 0x58] then .ok "sctx"
    else .error .unknownHeader

/-- The body of the per-file loop of `__main__`: classify, then dispatch.
`process_csv` decompresses and writes the result; the standalone KTX / SCTX
texture pipelines sit at the decoder boundary and are not error sources in
this model. -/
def processFile (ext : ExtLib) (old : Bool) (data : List Nat) :
    Except Err Unit := do
  let kind ← check_header data
  if kind = "csv" then do
    let _ ← decompress ext data
    pure ()
  else if kind = "sig:" then do
    let _ ← decompress ext (data.drop 68)
    pure ()
  else if kind = "sc" then do
    let _ ← processSc ext old data
    pure ()
  else pure ()

/-- The `for file in args.files` loop of `__main__`.  There is no
try/except around the body: an error raised while processing one file
propagates out of the loop. -/
def mainLoop (ext : ExtLib) (old : Bool) : List (List Nat) → Except Err Unit
  | [] => .ok ()
  | f :: fs => do
    processFile ext old f
    mainLoop ext old fs

section ReaderLemmas

/-- Reading a nonnegative number of bytes: the delivered bytes are clipped
to the buffer, the counters move by exactly the requested size. -/
theorem Reader.read_natCast (r : Reader) (n : Nat) :
    r.read (n : Int) = ((r.data.drop r.pos).take n,
      ⟨r.data, r.pos + ((r.data.drop r.pos).take n).length,
       r.bytesLeft - (n : Int), r.bytesRead + (n : Int)⟩) := by
  unfold Reader.read
  have h1 : (n : Int) ≠ -1 := by omega
  have h2 : ¬((n : Int) < 0) := by omega
  simp [h1, h2]

/-- `read(-1)` delivers the whole remainder and zeroes the counter. -/
theorem Reader.read_all (r : Reader) :
    r.read (-1) = (r.data.drop r.pos,
      ⟨r.data, r.data.length, 0, r.bytesRead + r.bytesLeft⟩) := by
  unfold Reader.read
  simp

theorem drop_pos_add (data : List Nat) (p n : Nat) :
    data.drop (p + n) = (data.drop p).drop n := by
  rw [List.drop_drop, Nat.add_comm]

theorem read_byte_cons (r : Reader) (x : Nat) (L : List Nat)
    (h : r.data.drop r.pos = x :: L) :
    r.read_byte = (x, ⟨r.data, r.pos + 1, r.bytesLeft - 1, r.bytesRead + 1⟩) := by
  have h1 : ((1 : Nat) : Int) = (1 : Int) := rfl
  unfold Reader.read_byte
  rw [← h1, Reader.read_natCast, h]
  simp [fromBytesLE]

theorem read_u16le_cons (r : Reader) (a b : Nat) (L : List Nat)
    (h : r.data.drop r.pos = a :: b :: L) :
    r.read_uint16le = (fromBytesLE [a, b],
      ⟨r.data, r.pos + 2, r.bytesLeft - 2, r.bytesRead + 2⟩) := by
  have h1 : ((2 : Nat) : Int) = (2 : Int) := rfl
  unfold Reader.read_uint16le
  rw [← h1, Reader.read_natCast, h]
  simp

theorem read_u32le_cons (r : Reader) (a b c d : Nat) (L : List Nat)
    (h : r.data.drop r.pos = a :: b :: c :: d :: L) :
    r.read_uint32le = (fromBytesLE [a, b, c, d],
      ⟨r.data, r.pos + 4, r.bytesLeft - 4, r.bytesRead + 4⟩) := by
  have h1 : ((4 : Nat) : Int) = (4 : Int) := rfl
  unfold Reader.read_uint32le
  rw [← h1, Reader.read_natCast, h]
  simp

theorem read_u32be_cons (r : Reader) (a b c d : Nat) (L : List Nat)
    (h : r.data.drop r.pos = a :: b :: c :: d :: L) :
    r.read_uint32be = (fromBytesBE [a, b, c, d],
      ⟨r.data, r.pos + 4, r.bytesLeft - 4, r.bytesRead + 4⟩) := by
  have h1 : ((4 : Nat) : Int) = (4 : Int) := rfl
  unfold Reader.read_uint32be
  rw [← h1, Reader.read_natCast, h]
  simp

end ReaderLemmas

deriving instance DecidableEq for Except

/-- C2 (amended): on a consistent reader, a read of `N ≤ remaining` bytes
returns exactly `N` bytes and keeps the reader consistent; a read of
`N > remaining` does not fail: it returns only the bytes actually remaining
and drives the internal counter negative, after which `len` reports 0. -/
theorem reader_read_exact (r : Reader) (n : Nat) (hc : r.Consistent) :
    (n ≤ r.len → ((r.read (n : Int)).1.length = n ∧ (r.read (n : Int)).2.Consistent))
    ∧ (r.len < n → ((r.read (n : Int)).1 = r.data.drop r.pos
        ∧ (r.read (n : Int)).2.len = 0)) := by
  obtain ⟨hp, hbl⟩ := hc
  rw [Reader.read_natCast]
  have hlen : r.len = r.data.length - r.pos := by
    unfold Reader.len; rw [hbl]; split <;> omega
  have hdl : (r.data.drop r.pos).length = r.data.length - r.pos :=
    List.length_drop _ _
  constructor
  · intro hn
    rw [hlen] at hn
    have htl : ((r.data.drop r.pos).take n).length = n := by
      rw [List.length_take, hdl]; omega
    refine ⟨htl, ?_, ?_⟩
    · simp only
      rw [htl]; omega
    · simp only
      rw [htl, hbl]
      push_cast
      ring
  · intro hn
    rw [hlen] at hn
    constructor
    · apply List.take_of_length_le
      rw [hdl]; omega
    · unfold Reader.len
      simp only
      rw [hbl]
      have h0 : (r.data.length : Int) - (r.pos : Int) - (n : Int) < 0 := by omega
      simp [h0]

/-- C2 counterexample: a `Reader` over two bytes asked for four bytes does
not fail; it returns the two remaining bytes (not four) and the remaining
counter goes negative. -/
theorem reader_overread_returns_short :
    ((Reader.ofBytes [1, 2]).read 4).1 = [1, 2]
    ∧ ((Reader.ofBytes [1, 2]).read 4).1.length ≠ 4
    ∧ ((Reader.ofBytes [1, 2]).read 4).2.bytesLeft = -2 := by decide

/-- C2 witness: a 2-byte read from a fresh 3-byte reader yields 2 bytes. -/
theorem reader_read_exact_witness :
    ((Reader.ofBytes [1, 2, 3]).read ((2 : Nat) : Int)).1.length = 2 :=
  ((reader_read_exact (Reader.ofBytes [1, 2, 3]) 2 (by decide)).1 (by decide)).1

/-- C1 (amended): the per-file loop does not catch errors.  A failure while
processing one file propagates out of `mainLoop`, aborting the batch (no
later file is processed); the loop completes only when every file processes
without error. -/
theorem mainLoop_error_propagates :
    (∀ (ext : ExtLib) (old : Bool) (f : List Nat) (fs : List (List Nat)) (e : Err),
      processFile ext old f = .error e → mainLoop ext old (f :: fs) = .error e)
    ∧ (∀ (ext : ExtLib) (old : Bool) (fs : List (List Nat)),
      (∀ f ∈ fs, processFile ext old f = .ok ()) → mainLoop ext old fs = .ok ()) := by
  constructor
  · intro ext old f fs e h
    simp [mainLoop, h, Bind.bind, Except.bind]
  · intro ext old fs h
    induction fs with
    | nil => rfl
    | cons f fs ih =>
      have hf := h f (by simp)
      have hrest := ih (fun g hg => h g (by simp [hg]))
      simp [mainLoop, hf, hrest, Bind.bind, Except.bind]

/-- C1 counterexample: a batch whose single file has an unrecognized header
makes the whole run fail with that error — it is not caught, logged and
skipped as the claim states, and the exit is not clean. -/
theorem mainLoop_unknown_header_aborts :
    mainLoop defaultExt false [[0]] = .error .unknownHeader := by decide

/-- C1 witness: the error of a failing file escapes `mainLoop`, and an
all-successful batch returns cleanly. -/
theorem mainLoop_error_propagates_witness :
    mainLoop defaultExt false [[5]] = .error .unknownHeader
    ∧ mainLoop defaultExt false [] = .ok () :=
  ⟨mainLoop_error_propagates.1 defaultExt false [5] [] .unknownHeader (by decide),
   mainLoop_error_propagates.2 defaultExt false [] (by simp)⟩

/-- C4 (amended): the pixel decoder performs no buffer-length validation of
its own.  For sub-types 2 and 4 it succeeds on buffers of any length
(missing bytes decode as zero); for the other sub-types the buffer is
passed unchecked to the external imaging library. -/
theorem create_image_no_size_check :
    ∀ (width height : Nat) (pixels : List Nat),
      (∃ img, create_image width height pixels 2 = .ok img)
      ∧ (∃ img, create_image width height pixels 4 = .ok img) := by
  intro w h p
  exact ⟨⟨_, rfl⟩, ⟨_, rfl⟩⟩

/-- C4 counterexample: an empty pixel buffer with `sub_type = 2` and a
declared 1x1 size (expected length 2) is decoded without any
`PixelBufferSize` failure — the missing pixel reads as zero. -/
theorem create_image_accepts_short_buffer :
    create_image 1 1 [] 2 = .ok (.loopRGBA 1 1 [(0, 0, 0, 0)])
    ∧ ([] : List Nat).length ≠ 1 * 1 * 2 := by decide

theorem fromBytesLE_append_four_zeros (l : List Nat) :
    fromBytesLE (l ++ [0, 0, 0, 0]) = fromBytesLE l := by
  induction l with
  | nil => decide
  | cons b t ih => simp [fromBytesLE, ih]

/-- C7: a payload that starts neither with `SCLZ` nor with the Zstd frame
magic is routed to LZMA after splicing four zero bytes in after byte index
9: the decoder receives the 5-byte properties block, the original 4-byte
little-endian size, four zero bytes, then the rest — and the resulting
8-byte size field has the same little-endian value as the original 4-byte
one. -/
theorem decompress_lzma_splice (ext : ExtLib) (data : List Nat)
    (h1 : data.take 4 ≠ sclzMagic) (h2 : data.take 4 ≠ zstdMagic)
    (h3 : 9 ≤ data.length) (h4 : data.headD 0 ≤ (4 * 5 + 4) * 9 + 8) :
    decompress ext data
      = ext.lzma (data.take 5 ++ (data.drop 5).take 4 ++ [0, 0, 0, 0] ++ data.drop 9)
    ∧ fromBytesLE (((data.take 9 ++ [0, 0, 0, 0] ++ data.drop 9).drop 5).take 8)
      = fromBytesLE ((data.drop 5).take 4) := by
  have hsplit : data.take 9 = data.take 5 ++ (data.drop 5).take 4 := by
    have h9 : (9 : Nat) = 5 + 4 := rfl
    rw [h9, List.take_add]
  have hlen5 : (data.take 5).length = 5 := by
    rw [List.length_take]; omega
  have hlen4 : ((data.drop 5).take 4).length = 4 := by
    rw [List.length_take, List.length_drop]; omega
  have hhead : (data.take 9 ++ [0, 0, 0, 0] ++ data.drop 9).headD 0 = data.headD 0 := by
    cases data with
    | nil => simp at h3
    | cons b t => simp [List.take]
  constructor
  · unfold decompress
    rw [if_neg h1, if_neg h2]
    simp only [hhead]
    rw [if_neg (by omega)]
    rw [hsplit, List.append_assoc]
  · rw [hsplit, List.append_assoc, List.append_assoc,
      List.drop_append_eq_append_drop, hlen5,
      List.drop_eq_nil_of_le (le_of_eq hlen5)]
    simp only [Nat.sub_self, List.drop_zero, List.nil_append]
    rw [← List.append_assoc, List.take_append_eq_append_take]
    rw [List.take_of_length_le (by rw [List.length_append, hlen4]; simp)]
    have hll : (List.take 4 (List.drop 5 data) ++ [0, 0, 0, 0]).length = 8 := by
      rw [List.length_append, hlen4]; rfl
    rw [hll, Nat.sub_self, List.take_zero, List.append_nil]
    exact fromBytesLE_append_four_zeros _

/-- C7 witness: a concrete 10-byte LZMA payload is spliced as described. -/
theorem decompress_lzma_splice_witness :
    decompress defaultExt [0, 1, 2, 3, 4, 5, 6, 7, 8, 9]
      = defaultExt.lzma ([0, 1, 2, 3, 4] ++ [5, 6, 7, 8] ++ [0, 0, 0, 0] ++ [9]) := by
  have h := decompress_lzma_splice defaultExt [0, 1, 2, 3, 4, 5, 6, 7, 8, 9]
    (by decide) (by decide) (by decide) (by decide)
  simpa using h.1

/-- Evaluation of one walker iteration at a tag-45 chunk: the inner size is
read (and discarded), five header bytes are consumed, and the whole rest of
the stream is handed to the KTX decoder, emptying the reader. -/
theorem step_tag45 (s : SCState) (a b c d i1 i2 i3 i4 st w1 w2 h1 h2 : Nat)
    (rest : List Nat)
    (hL : s.reader.data.drop s.reader.pos
      = 45 :: a :: b :: c :: d :: i1 :: i2 :: i3 :: i4 :: st :: w1 :: w2 :: h1 :: h2 :: rest)
    (hsz : fromBytesLE [a, b, c, d] ≠ 0) :
    step s = .ok ⟨⟨s.reader.data, s.reader.data.length, 0,
        s.reader.bytesRead + s.reader.bytesLeft⟩, s.count,
      s.events ++ [.ktx rest]⟩ := by
  obtain ⟨⟨data, p, bl, br⟩, count, events⟩ := s
  simp only at hL
  have d1 : data.drop (p + 1) = a :: b :: c :: d :: i1 :: i2 :: i3 :: i4 :: st :: w1 :: w2 :: h1 :: h2 :: rest := by
    rw [drop_pos_add, hL]
    rfl
  have d5 : data.drop (p + 1 + 4) = i1 :: i2 :: i3 :: i4 :: st :: w1 :: w2 :: h1 :: h2 :: rest := by
    have hq : p + 1 + 4 = p + 5 := by omega
    rw [hq, drop_pos_add, hL]
    rfl
  have d9 : data.drop (p + 1 + 4 + 4) = st :: w1 :: w2 :: h1 :: h2 :: rest := by
    have hq : p + 1 + 4 + 4 = p + 9 := by omega
    rw [hq, drop_pos_add, hL]
    rfl
  have d10 : data.drop (p + 1 + 4 + 4 + 1) = w1 :: w2 :: h1 :: h2 :: rest := by
    have hq : p + 1 + 4 + 4 + 1 = p + 10 := by omega
    rw [hq, drop_pos_add, hL]
    rfl
  have d12 : data.drop (p + 1 + 4 + 4 + 1 + 2) = h1 :: h2 :: rest := by
    have hq : p + 1 + 4 + 4 + 1 + 2 = p + 12 := by omega
    rw [hq, drop_pos_add, hL]
    rfl
  have d14 : data.drop (p + 1 + 4 + 4 + 1 + 2 + 2) = rest := by
    have hq : p + 1 + 4 + 4 + 1 + 2 + 2 = p + 14 := by omega
    rw [hq, drop_pos_add, hL]
    rfl
  have e1 := read_byte_cons ⟨data, p, bl, br⟩ 45 _ hL
  have e2 := read_u32le_cons ⟨data, p + 1, bl - 1, br + 1⟩ a b c d _ d1
  have e3 := read_u32le_cons ⟨data, p + 1 + 4, bl - 1 - 4, br + 1 + 4⟩ i1 i2 i3 i4 _ d5
  have e4 := read_byte_cons ⟨data, p + 1 + 4 + 4, bl - 1 - 4 - 4, br + 1 + 4 + 4⟩ st _ d9
  have e5 := read_u16le_cons ⟨data, p + 1 + 4 + 4 + 1, bl - 1 - 4 - 4 - 1, br + 1 + 4 + 4 + 1⟩ w1 w2 _ d10
  have e6 := read_u16le_cons ⟨data, p + 1 + 4 + 4 + 1 + 2, bl - 1 - 4 - 4 - 1 - 2, br + 1 + 4 + 4 + 1 + 2⟩ h1 h2 _ d12
  have e7 := Reader.read_all ⟨data, p + 1 + 4 + 4 + 1 + 2 + 2, bl - 1 - 4 - 4 - 1 - 2 - 2, br + 1 + 4 + 4 + 1 + 2 + 2⟩
  unfold step stepBody
  simp [recognizedTags, hsz, e1, e2, e3, e4, e5, e6, e7, d14]

/-- C3 counterexample: a tag-45 chunk with outer size 1 and inner size 2
followed by a 5-byte header and six more bytes: the walker hands all six
trailing bytes to the KTX decoder, not the two bytes the inner size field
advertises. -/
theorem tag45_ignores_inner_size :
    step ⟨Reader.ofBytes
        ([45] ++ [1, 0, 0, 0] ++ [2, 0, 0, 0] ++ [9, 9, 9, 9, 9] ++ [7, 7, 7, 7, 7, 7]),
      0, []⟩
      = .ok ⟨⟨[45, 1, 0, 0, 0, 2, 0, 0, 0, 9, 9, 9, 9, 9, 7, 7, 7, 7, 7, 7], 20, 0, 20⟩,
        0, [.ktx [7, 7, 7, 7, 7, 7]]⟩
    ∧ ([7, 7, 7, 7, 7, 7] : List Nat).length ≠ fromBytesLE [2, 0, 0, 0] := by decide

/-- C3 (amended): at a tag-45 chunk the walker does read a second
little-endian `u32` immediately after the outer size field, but that value
is not used to bound the payload: the walker then consumes a 5-byte
`(sub_type, width, height)` header and the KTX blob handed to the texture
decoder is the entire remaining stream, leaving the reader empty. -/
theorem tag45_reads_all_remaining (s : SCState)
    (a b c d i1 i2 i3 i4 st w1 w2 h1 h2 : Nat) (rest : List Nat)
    (hL : s.reader.data.drop s.reader.pos
      = 45 :: a :: b :: c :: d :: i1 :: i2 :: i3 :: i4 :: st :: w1 :: w2 :: h1 :: h2 :: rest)
    (hsz : fromBytesLE [a, b, c, d] ≠ 0) :
    step s = .ok ⟨⟨s.reader.data, s.reader.data.length, 0,
        s.reader.bytesRead + s.reader.bytesLeft⟩, s.count,
      s.events ++ [.ktx rest]⟩ :=
  step_tag45 s a b c d i1 i2 i3 i4 st w1 w2 h1 h2 rest hL hsz

/-- C3 witness: the amended behaviour at a concrete tag-45 chunk. -/
theorem tag45_reads_all_remaining_witness :
    step ⟨Reader.ofBytes [45, 3, 0, 0, 0, 8, 0, 0, 0, 0, 2, 0, 2, 0, 1, 2, 3], 0, []⟩
      = .ok ⟨⟨[45, 3, 0, 0, 0, 8, 0, 0, 0, 0, 2, 0, 2, 0, 1, 2, 3], 17, 0, 17⟩,
        0, [.ktx [1, 2, 3]]⟩ := by
  have h := tag45_reads_all_remaining
    ⟨Reader.ofBytes [45, 3, 0, 0, 0, 8, 0, 0, 0, 0, 2, 0, 2, 0, 1, 2, 3], 0, []⟩
    3 0 0 0 8 0 0 0 0 2 0 2 0 [1, 2, 3] (by decide) (by decide)
  simpa using h

/-- C9: a tag-45 chunk that reaches the texture-dispatch step consumes the
entire remainder of the decompressed stream (`reader.read()` with no
bound), so the walker's loop condition is false immediately afterwards and
no chunk located after the tag-45 chunk is ever processed. -/
theorem tag45_consumes_stream_tail (s : SCState)
    (a b c d i1 i2 i3 i4 st w1 w2 h1 h2 : Nat) (rest : List Nat)
    (hL : s.reader.data.drop s.reader.pos
      = 45 :: a :: b :: c :: d :: i1 :: i2 :: i3 :: i4 :: st :: w1 :: w2 :: h1 :: h2 :: rest)
    (hsz : fromBytesLE [a, b, c, d] ≠ 0) :
    ∃ s', step s = .ok s' ∧ s'.reader.len = 0 ∧ s'.reader.pos = s.reader.data.length
      ∧ (∀ fuel, walkAux fuel s' = .ok (some s')) := by
  refine ⟨_, step_tag45 s a b c d i1 i2 i3 i4 st w1 w2 h1 h2 rest hL hsz, ?_, rfl, ?_⟩
  · rfl
  · intro fuel
    cases fuel <;> simp [walkAux, Reader.len]

/-- C9 witness: at a concrete tag-45 chunk the walk halts right after. -/
theorem tag45_consumes_stream_tail_witness :
    ∃ s', step ⟨Reader.ofBytes [45, 9, 0, 0, 0, 1, 0, 0, 0, 0, 1, 0, 1, 0, 4, 5], 0, []⟩
        = .ok s' ∧ s'.reader.len = 0
      ∧ s'.reader.pos = ([45, 9, 0, 0, 0, 1, 0, 0, 0, 0, 1, 0, 1, 0, 4, 5] : List Nat).length
      ∧ (∀ fuel, walkAux fuel s' = .ok (some s')) :=
  tag45_consumes_stream_tail
    ⟨Reader.ofBytes [45, 9, 0, 0, 0, 1, 0, 0, 0, 0, 1, 0, 1, 0, 4, 5], 0, []⟩
    9 0 0 0 1 0 0 0 0 1 0 1 0 [4, 5] (by decide) (by decide)

/-- C6: a chunk whose tag is outside the recognized set and whose size is
non-zero makes the walker log the unknown tag, consume exactly `size` body
bytes (when they are present) and continue with the next chunk — the image
counter is unchanged and no error is raised. -/
theorem unknown_tag_skips_size_bytes (s : SCState) (t a b c d : Nat)
    (rest : List Nat)
    (hL : s.reader.data.drop s.reader.pos = t :: a :: b :: c :: d :: rest)
    (ht : t ∉ recognizedTags)
    (hn : fromBytesLE [a, b, c, d] ≠ 0)
    (hlen : fromBytesLE [a, b, c, d] ≤ rest.length) :
    step s = .ok { s with
      reader := ⟨s.reader.data, s.reader.pos + 5 + fromBytesLE [a, b, c, d],
        s.reader.bytesLeft - 5 - fromBytesLE [a, b, c, d],
        s.reader.bytesRead + 5 + fromBytesLE [a, b, c, d]⟩,
      events := s.events ++ [Event.unknownTag t] } := by
  obtain ⟨⟨data, p, bl, br⟩, count, events⟩ := s
  simp only at hL ht ⊢
  have d1 : data.drop (p + 1) = a :: b :: c :: d :: rest := by
    rw [drop_pos_add, hL]
    rfl
  have d5 : data.drop (p + 1 + 4) = rest := by
    have hq : p + 1 + 4 = p + 5 := by omega
    rw [hq, drop_pos_add, hL]
    rfl
  have e1 := read_byte_cons ⟨data, p, bl, br⟩ t _ hL
  have e2 := read_u32le_cons ⟨data, p + 1, bl - 1, br + 1⟩ a b c d _ d1
  have e3 := Reader.read_natCast ⟨data, p + 1 + 4, bl - 1 - 4, br + 1 + 4⟩
    (fromBytesLE [a, b, c, d])
  have htk : ((data.drop (p + 1 + 4)).take (fromBytesLE [a, b, c, d])).length
      = fromBytesLE [a, b, c, d] := by
    rw [List.length_take, d5]; omega
  unfold step stepBody
  simp [hn, ht, e1, e2, e3, htk]
  omega

/-- C6 witness: a concrete unknown tag 99 with size 1 is logged and
skipped, and the walker continues without error. -/
theorem unknown_tag_skips_size_bytes_witness :
    step ⟨Reader.ofBytes [99, 1, 0, 0, 0, 55], 0, []⟩
      = .ok ⟨⟨[99, 1, 0, 0, 0, 55], 6, 0, 6⟩, 0, [Event.unknownTag 99]⟩ := by
  have h := unknown_tag_skips_size_bytes ⟨Reader.ofBytes [99, 1, 0, 0, 0, 55], 0, []⟩
    99 1 0 0 0 [55] rfl (by decide) (by decide) (by decide)
  simpa using h


section Termination

theorem bytesLeft_read_natCast (r : Reader) (m : Nat) :
    ((r.read (m : Int)).2).bytesLeft = r.bytesLeft - m := by
  rw [Reader.read_natCast]

theorem bytesLeft_read_byte (r : Reader) :
    ((r.read_byte).2).bytesLeft = r.bytesLeft - 1 := by
  have h : ((1 : Nat) : Int) = (1 : Int) := rfl
  unfold Reader.read_byte
  rw [← h, bytesLeft_read_natCast]

theorem bytesLeft_read_u16le (r : Reader) :
    ((r.read_uint16le).2).bytesLeft = r.bytesLeft - 2 := by
  have h : ((2 : Nat) : Int) = (2 : Int) := rfl
  unfold Reader.read_uint16le
  rw [← h, bytesLeft_read_natCast]

theorem bytesLeft_read_u32le (r : Reader) :
    ((r.read_uint32le).2).bytesLeft = r.bytesLeft - 4 := by
  have h : ((4 : Nat) : Int) = (4 : Int) := rfl
  unfold Reader.read_uint32le
  rw [← h, bytesLeft_read_natCast]

theorem bytesLeft_read_int32le (r : Reader) :
    ((r.read_int32le).2).bytesLeft = r.bytesLeft - 4 := by
  have h : ((4 : Nat) : Int) = (4 : Int) := rfl
  unfold Reader.read_int32le
  rw [← h, bytesLeft_read_natCast]

theorem bytesLeft_read_string_le (r : Reader) :
    ((r.read_string).2).bytesLeft ≤ r.bytesLeft - 1 := by
  unfold Reader.read_string
  simp only
  rw [bytesLeft_read_natCast, bytesLeft_read_byte]
  omega

theorem bytesLeft_readInt32s (n : Nat) (r : Reader) :
    ((readInt32s n r).2).bytesLeft = r.bytesLeft - 4 * n := by
  induction n generalizing r with
  | zero => simp [readInt32s]
  | succ m ih =>
    simp only [readInt32s]
    rw [ih, bytesLeft_read_int32le]
    push_cast
    ring

theorem bytesLeft_runReads_le (l : List (Nat × Nat)) (r : Reader) (buf : Nat → Nat) :
    ((runReads l r buf).2).bytesLeft ≤ r.bytesLeft := by
  induction l generalizing r buf with
  | nil => simp [runReads]
  | cons sg rest ih =>
    simp only [runReads]
    calc ((runReads rest ((r.read (sg.2 : Int)).2)
            (writeRun buf sg.1 (r.read (sg.2 : Int)).1)).2).bytesLeft
        ≤ ((r.read (sg.2 : Int)).2).bytesLeft := ih _ _
      _ ≤ r.bytesLeft := by rw [bytesLeft_read_natCast]; omega

theorem bytesLeft_header5 (r : Reader) :
    ((r.read_byte.2.read_uint16le.2.read_uint16le).2).bytesLeft
      = r.bytesLeft - 5 := by
  rw [bytesLeft_read_u16le, bytesLeft_read_u16le, bytesLeft_read_byte]
  ring

/-- Every successful dispatch leaves the counter at most where the tag and
size reads put it — or zeroed, for the branches that read to the end. -/
theorem stepBody_bytesLeft (tb size0 : Nat) (r2 : Reader) (s s' : SCState)
    (h : stepBody tb size0 r2 s = .ok s') :
    s'.reader.bytesLeft ≤ r2.bytesLeft ∨ s'.reader.bytesLeft = 0 := by
  by_cases c0 : size0 = 0
  · unfold stepBody at h
    rw [if_pos c0] at h
    try simp only [Except.ok.injEq] at h
    subst h
    left; simp
  by_cases ct : tb ∈ recognizedTags
  · simp only [recognizedTags, List.mem_cons, List.not_mem_nil, or_false] at ct
    rcases ct with rfl | rfl | rfl | rfl | rfl | rfl | rfl | rfl | rfl
    ·
      -- tag 1
      unfold stepBody at h
      simp only [recognizedTags, c0] at h
      norm_num at h
      split at h
      · exact absurd h (by simp)
      try simp only [Except.ok.injEq] at h
      subst h
      try simp only
      set k := ((size0 : Int) - 5) with hk
      have hk5 : -5 ≤ k := by rw [hk]; omega
      by_cases hm1 : k = -1
      · right
        simp [Reader.read, hm1]
      by_cases hneg : k < 0
      · left
        simp only [Reader.read, if_neg hm1, if_pos hneg]
        try simp only
        rw [bytesLeft_header5]
        omega
      · left
        simp only [Reader.read, if_neg hm1, if_neg hneg]
        try simp only
        rw [bytesLeft_header5]
        omega
    ·
      -- tag 8
      unfold stepBody at h
      simp only [recognizedTags, c0] at h
      norm_num at h
      try simp only [Except.ok.injEq] at h
      subst h
      left
      try simp only
      rw [bytesLeft_readInt32s]
      omega
    ·
      -- tag 12
      unfold stepBody at h
      simp only [recognizedTags, c0] at h
      norm_num at h
      try simp only [Except.ok.injEq] at h
      subst h
      left
      try simp only
      rw [bytesLeft_read_natCast]
      omega
    ·
      -- tag 24
      unfold stepBody at h
      simp only [recognizedTags, c0] at h
      norm_num at h
      split at h
      · exact absurd h (by simp)
      try simp only [Except.ok.injEq] at h
      subst h
      try simp only
      set k := ((size0 : Int) - 5) with hk
      have hk5 : -5 ≤ k := by rw [hk]; omega
      by_cases hm1 : k = -1
      · right
        simp [Reader.read, hm1]
      by_cases hneg : k < 0
      · left
        simp only [Reader.read, if_neg hm1, if_pos hneg]
        try simp only
        rw [bytesLeft_header5]
        omega
      · left
        simp only [Reader.read, if_neg hm1, if_neg hneg]
        try simp only
        rw [bytesLeft_header5]
        omega
    ·
      -- tag 27
      unfold stepBody at h
      simp only [recognizedTags, c0] at h
      norm_num at h
      split at h
      · exact absurd h (by simp)
      split at h
      · exact absurd h (by simp)
      split at h
      · exact absurd h (by simp)
      try simp only [Except.ok.injEq] at h
      subst h
      left
      try simp only
      refine le_trans (bytesLeft_runReads_le _ _ _) ?_
      rw [bytesLeft_header5]
      omega
    ·
      -- tag 28
      unfold stepBody at h
      simp only [recognizedTags, c0] at h
      norm_num at h
      split at h
      · exact absurd h (by simp)
      split at h
      · exact absurd h (by simp)
      split at h
      · exact absurd h (by simp)
      try simp only [Except.ok.injEq] at h
      subst h
      left
      try simp only
      refine le_trans (bytesLeft_runReads_le _ _ _) ?_
      rw [bytesLeft_header5]
      omega
    ·
      -- tag 45
      unfold stepBody at h
      simp only [recognizedTags, c0] at h
      norm_num at h
      try simp only [Except.ok.injEq] at h
      subst h
      right
      simp [Reader.read]
    ·
      -- tag 47
      unfold stepBody at h
      simp only [recognizedTags, c0] at h
      norm_num at h
      try simp only [Except.ok.injEq] at h
      subst h
      left
      try simp only
      rw [bytesLeft_header5]
      have hstr := bytesLeft_read_string_le r2
      omega
    ·
      -- tag 49
      unfold stepBody at h
      simp only [recognizedTags, c0] at h
      norm_num at h
      try simp only [Except.ok.injEq] at h
      subst h
      left
      try simp only
      rw [bytesLeft_read_natCast]
      omega
  · unfold stepBody at h
    rw [if_neg c0, if_pos ct] at h
    try simp only [Except.ok.injEq] at h
    subst h
    left
    try simp only
    rw [bytesLeft_read_natCast]
    omega

end Termination

/-- Each successful iteration of the chunk walk strictly shrinks the
reported remaining length. -/
theorem step_len_decrease (s s' : SCState) (h : step s = .ok s')
    (h0 : s.reader.len ≠ 0) : s'.reader.len < s.reader.len := by
  have hB : 1 ≤ s.reader.bytesLeft := by
    unfold Reader.len at h0
    by_cases hc : s.reader.bytesLeft < 0
    · simp [hc] at h0
    · rw [if_neg hc] at h0
      omega
  unfold step at h
  have hd := stepBody_bytesLeft _ _ _ _ _ h
  have h2 : ((((s.reader.read_byte).2).read_uint32le).2).bytesLeft
      = s.reader.bytesLeft - 5 := by
    rw [bytesLeft_read_u32le, bytesLeft_read_byte]
    ring
  rw [h2] at hd
  unfold Reader.len
  rcases hd with hle | hz
  · split <;> split <;> omega
  · split <;> split <;> omega

/-- With fuel at least the reported remaining length, the chunk walk never
runs out of fuel: it ends with the loop condition false or with an error. -/
theorem walkAux_ne_none (fuel : Nat) (s : SCState) (hf : s.reader.len ≤ fuel) :
    walkAux fuel s ≠ .ok none := by
  induction fuel generalizing s with
  | zero =>
    have hz : s.reader.len = 0 := by omega
    simp [walkAux, hz]
  | succ n ih =>
    unfold walkAux
    by_cases hz : s.reader.len = 0
    · simp [hz]
    · rw [if_neg hz]
      cases hstep : step s with
      | error e => simp
      | ok s' =>
        have hlt := step_len_decrease s s' hstep hz
        exact ih s' (by omega)

/-- C10: the reader's reported length is never negative — `len` returns 0
whenever the internal counter has gone below zero — and consequently the
chunk walker's while-loop condition eventually becomes false: with fuel
equal to the initial remaining length the walk never exhausts its fuel. -/
theorem reader_len_clamped_and_walk_terminates :
    (∀ r : Reader, r.bytesLeft < 0 → r.len = 0)
    ∧ (∀ (fuel : Nat) (s : SCState), s.reader.len ≤ fuel → walkAux fuel s ≠ .ok none) := by
  constructor
  · intro r h
    unfold Reader.len
    rw [if_pos h]
  · intro fuel s h
    exact walkAux_ne_none fuel s h

/-- C10 witness: a reader with a negative counter reports length 0, and a
walk over an empty stream terminates with zero fuel. -/
theorem reader_len_clamped_and_walk_terminates_witness :
    (⟨[], 0, -1, 0⟩ : Reader).len = 0
    ∧ walkAux 0 ⟨Reader.ofBytes [], 0, []⟩ ≠ .ok none :=
  ⟨reader_len_clamped_and_walk_terminates.1 _ (by decide),
   reader_len_clamped_and_walk_terminates.2 0 _ (by decide)⟩

section HashCheck

/-- The decompression router never consults the MD5 oracle. -/
theorem decompress_md5_irrelevant (ext : ExtLib) (f : List Nat → List Nat)
    (p : List Nat) : decompress { ext with md5 := f } p = decompress ext p := rfl

theorem read2_cons (r : Reader) (x1 x2 : Nat) (L : List Nat)
    (h : r.data.drop r.pos = x1 :: x2 :: L) :
    r.read 2 = ([x1, x2], ⟨r.data, r.pos + 2, r.bytesLeft - 2, r.bytesRead + 2⟩) := by
  have hc : (2 : Int) = ((2 : Nat) : Int) := rfl
  rw [hc, Reader.read_natCast, h]
  norm_num

theorem read_len_append (r : Reader) (l1 l2 : List Nat)
    (h : r.data.drop r.pos = l1 ++ l2) :
    r.read ((l1.length : Nat) : Int)
      = (l1, ⟨r.data, r.pos + l1.length, r.bytesLeft - (l1.length : Int),
          r.bytesRead + (l1.length : Int)⟩) := by
  rw [Reader.read_natCast, h, List.take_left]

theorem read_all_eq (r : Reader) (l : List Nat) (h : r.data.drop r.pos = l) :
    r.read (-1) = (l, ⟨r.data, r.data.length, 0, r.bytesRead + r.bytesLeft⟩) := by
  rw [Reader.read_all, h]

/-- Evaluation of `process_sc` on a container whose header declares
`hash_length = 16`: the outer header is consumed, the payload decompressed,
the hash compared, and the chunk walk run on the decompressed bytes. -/
theorem processSc_eval (E : ExtLib) (old : Bool)
    (b0 b1 v1 v2 v3 v4 v5 v6 v7 v8 : Nat) (hash payload d : List Nat)
    (hh : hash.length = 16) (hd : decompress E payload = .ok d) :
    processSc E old (b0 :: b1 :: v1 :: v2 :: v3 :: v4 :: v5 :: v6 :: v7 :: v8
        :: 0 :: 0 :: 0 :: 16 :: (hash ++ payload))
      = (match walkAux
            (SCState.mk (if old then oldPrologue (Reader.ofBytes d) else Reader.ofBytes d)
              0 []).reader.len
            ⟨(if old then oldPrologue (Reader.ofBytes d) else Reader.ofBytes d), 0, []⟩ with
        | .error e => .error e
        | .ok none => .error .outOfFuel
        | .ok (some st) => .ok ⟨decide (E.md5 d ≠ hash), st.events, st.count⟩) := by
  set data := b0 :: b1 :: v1 :: v2 :: v3 :: v4 :: v5 :: v6 :: v7 :: v8
      :: 0 :: 0 :: 0 :: 16 :: (hash ++ payload) with hdata
  have d0 : data.drop 0 = b0 :: b1 :: v1 :: v2 :: v3 :: v4 :: v5 :: v6 :: v7 :: v8
      :: 0 :: 0 :: 0 :: 16 :: (hash ++ payload) := by rw [hdata]; rfl
  have d2 : data.drop (0 + 2) = v1 :: v2 :: v3 :: v4 :: v5 :: v6 :: v7 :: v8
      :: 0 :: 0 :: 0 :: 16 :: (hash ++ payload) := by
    rw [hdata]
    rfl
  have d6 : data.drop (0 + 2 + 4) = v5 :: v6 :: v7 :: v8
      :: 0 :: 0 :: 0 :: 16 :: (hash ++ payload) := by
    rw [hdata]
    rfl
  have d10 : data.drop (0 + 2 + 4 + 4) = 0 :: 0 :: 0 :: 16 :: (hash ++ payload) := by
    rw [hdata]
    rfl
  have d14 : data.drop (0 + 2 + 4 + 4 + 4) = hash ++ payload := by
    rw [hdata]
    rfl
  have d30 : data.drop (0 + 2 + 4 + 4 + 4 + hash.length) = payload := by
    have hq : 0 + 2 + 4 + 4 + 4 + hash.length = 14 + hash.length := by omega
    rw [hq, drop_pos_add]
    have h14 : data.drop 14 = hash ++ payload := by
      rw [hdata]
      rfl
    rw [h14, List.drop_left]
  have e0 := read2_cons ⟨data, 0, (data.length : Int), 0⟩ b0 b1 _ d0
  have e1 := read_u32be_cons ⟨data, 0 + 2, (data.length : Int) - 2, 0 + 2⟩ v1 v2 v3 v4 _ d2
  have e2 := read_u32be_cons ⟨data, 0 + 2 + 4, (data.length : Int) - 2 - 4, 0 + 2 + 4⟩
    v5 v6 v7 v8 _ d6
  have e3 := read_u32be_cons ⟨data, 0 + 2 + 4 + 4, (data.length : Int) - 2 - 4 - 4,
    0 + 2 + 4 + 4⟩ 0 0 0 16 _ d10
  have h16 : fromBytesBE [0, 0, 0, 16] = hash.length := by
    rw [hh]
    decide
  have e4 := read_len_append ⟨data, 0 + 2 + 4 + 4 + 4,
    (data.length : Int) - 2 - 4 - 4 - 4, 0 + 2 + 4 + 4 + 4⟩ hash payload d14
  have e5 := read_all_eq ⟨data, 0 + 2 + 4 + 4 + 4 + hash.length,
    (data.length : Int) - 2 - 4 - 4 - 4 - (hash.length : Int),
    0 + 2 + 4 + 4 + 4 + (hash.length : Int)⟩ payload d30
  unfold processSc
  simp only [Reader.ofBytes, ← hdata, e0, e1, e2, e3, h16, e4, e5, hd]
  simp [Bind.bind, Except.bind]

/-- C5: on an SC container with `hash_length = 16`, the MD5 of the
decompressed payload is compared against the stored 16-byte hash; a
mismatch only raises the corruption flag (the "File seems corrupted" log
line) and is non-fatal — the chunk walk on the decompressed bytes, its
events, its image count and even its errors are identical to the matching
case: swapping the MD5 oracle changes nothing but the flag. -/
theorem processSc_hash_mismatch_nonfatal (ext : ExtLib) (f : List Nat → List Nat)
    (old : Bool) (b0 b1 v1 v2 v3 v4 v5 v6 v7 v8 : Nat) (hash payload d : List Nat)
    (hh : hash.length = 16) (hd : decompress ext payload = .ok d) :
    processSc { ext with md5 := f } old (b0 :: b1 :: v1 :: v2 :: v3 :: v4 :: v5 :: v6
        :: v7 :: v8 :: 0 :: 0 :: 0 :: 16 :: (hash ++ payload))
      = (processSc ext old (b0 :: b1 :: v1 :: v2 :: v3 :: v4 :: v5 :: v6
          :: v7 :: v8 :: 0 :: 0 :: 0 :: 16 :: (hash ++ payload))).map
        (fun res => { res with corrupted := decide (f d ≠ hash) })
    ∧ ∀ res, processSc ext old (b0 :: b1 :: v1 :: v2 :: v3 :: v4 :: v5 :: v6
        :: v7 :: v8 :: 0 :: 0 :: 0 :: 16 :: (hash ++ payload)) = .ok res
      → res.corrupted = decide (ext.md5 d ≠ hash) := by
  have hdf : decompress { ext with md5 := f } payload = .ok d := by
    rw [decompress_md5_irrelevant]
    exact hd
  have h1 := processSc_eval ext old b0 b1 v1 v2 v3 v4 v5 v6 v7 v8 hash payload d hh hd
  have h2 := processSc_eval { ext with md5 := f } old b0 b1 v1 v2 v3 v4 v5 v6 v7 v8
    hash payload d hh hdf
  rw [h1, h2]
  constructor
  · cases hw : walkAux
        (SCState.mk (if old then oldPrologue (Reader.ofBytes d) else Reader.ofBytes d)
          0 []).reader.len
        ⟨(if old then oldPrologue (Reader.ofBytes d) else Reader.ofBytes d), 0, []⟩ with
    | error e => simp [hw, Except.map]
    | ok o =>
      cases o with
      | none => simp [hw, Except.map]
      | some st => simp [hw, Except.map]
  · intro res hres
    revert hres
    cases hw : walkAux
        (SCState.mk (if old then oldPrologue (Reader.ofBytes d) else Reader.ofBytes d)
          0 []).reader.len
        ⟨(if old then oldPrologue (Reader.ofBytes d) else Reader.ofBytes d), 0, []⟩ with
    | error e => intro hres; exact absurd hres (by simp [hw])
    | ok o =>
      cases o with
      | none => intro hres; exact absurd hres (by simp [hw])
      | some st =>
        intro hres
        simp only [hw, Except.ok.injEq] at hres
        rw [← hres]

/-- C5 witness: a concrete container whose stored hash does not match; the
walk result is the same under both oracles and the flag records the
mismatch. -/
theorem processSc_hash_mismatch_nonfatal_witness :
    (⟨true, [], 0⟩ : SCResult).corrupted = decide (defaultExt.md5 [] ≠ List.replicate 16 0) :=
  (processSc_hash_mismatch_nonfatal defaultExt (fun _ => []) false 83 67 0 0 0 1 0 0 0 1
    (List.replicate 16 0) [] [] (by decide) (by decide)).2 ⟨true, [], 0⟩ (by decide)

section Deswizzle

/-- Reading runs through a `Reader` that has enough bytes is the same as
consuming a plain cursor list. -/
theorem runReads_eq_runWrites (l : List (Nat × Nat)) :
    ∀ (data : List Nat) (p : Nat) (bl br : Int) (buf : Nat → Nat),
    (l.map Prod.snd).sum + p ≤ data.length →
    (runReads l ⟨data, p, bl, br⟩ buf).1 = runWrites l (data.drop p) buf := by
  induction l with
  | nil => intro data p bl br buf _; rfl
  | cons sg rest ih =>
    intro data p bl br buf hsum
    obtain ⟨d, sz⟩ := sg
    simp only [List.map_cons, List.sum_cons] at hsum
    have hlen : ((data.drop p).take sz).length = sz := by
      rw [List.length_take, List.length_drop]
      omega
    simp only [runReads, runWrites, Reader.read_natCast]
    rw [hlen]
    rw [ih data (p + sz) _ _ _ (by omega), drop_pos_add]

/-- Runs whose regions avoid an index leave the buffer unchanged there. -/
theorem runWrites_preserve (l : List (Nat × Nat)) :
    ∀ (cur : List Nat) (buf : Nat → Nat) (j : Nat),
    (∀ sg ∈ l, j < sg.1 ∨ sg.1 + sg.2 ≤ j) →
    runWrites l cur buf j = buf j := by
  induction l with
  | nil => intro cur buf j _; rfl
  | cons sg rest ih =>
    intro cur buf j hout
    obtain ⟨d, sz⟩ := sg
    simp only [runWrites]
    rw [ih _ _ _ (fun t ht => hout t (by simp [ht]))]
    unfold writeRun
    have hd := hout (d, sz) (by simp)
    have hlen : (cur.take sz).length ≤ sz := by
      rw [List.length_take]
      omega
    simp only at hd
    rw [if_neg (by omega)]

/-- Writing pairwise-disjoint, in-bounds runs from a cursor into a zeroed
buffer and reading the same runs back, in the same order, reproduces the
cursor. -/
theorem runWrites_roundtrip (N : Nat) (l : List (Nat × Nat)) :
    ∀ (input : List Nat) (buf : Nat → Nat),
    List.Pairwise (fun sg t => sg.1 + sg.2 ≤ t.1 ∨ t.1 + t.2 ≤ sg.1) l →
    (l.map Prod.snd).sum = input.length →
    (∀ sg ∈ l, sg.1 + sg.2 ≤ N) →
    (l.flatMap fun sg =>
      (((List.range N).map (runWrites l input buf)).drop sg.1).take sg.2) = input := by
  induction l with
  | nil =>
    intro input buf _ hsum _
    simp only [List.map_nil, List.sum_nil] at hsum
    simp only [List.flatMap_nil]
    exact (List.eq_nil_of_length_eq_zero hsum.symm).symm
  | cons sg rest ih =>
    intro input buf hpw hsum hbnd
    obtain ⟨d, sz⟩ := sg
    rw [List.pairwise_cons] at hpw
    obtain ⟨hhead, htail⟩ := hpw
    simp only [List.map_cons, List.sum_cons] at hsum
    have hN : d + sz ≤ N := by
      have := hbnd (d, sz) (by simp)
      simpa using this
    have hsz : sz ≤ input.length := by omega
    have hrw : runWrites ((d, sz) :: rest) input buf
        = runWrites rest (input.drop sz) (writeRun buf d (input.take sz)) := rfl
    have hdroplen : (input.drop sz).length = input.length - sz := List.length_drop _ _
    have htake : input.take sz ++ input.drop sz = input := List.take_append_drop _ _
    rw [List.flatMap_cons, hrw]
    have hrest := ih (input.drop sz) (writeRun buf d (input.take sz)) htail
      (by rw [hdroplen]; omega) (fun t ht => hbnd t (by simp [ht]))
    rw [hrest]
    have hheadeq :
        (((List.range N).map (runWrites rest (input.drop sz)
            (writeRun buf d (input.take sz)))).drop d).take sz = input.take sz := by
      apply List.ext_getElem
      · rw [List.length_take, List.length_drop, List.length_map, List.length_range,
          List.length_take]
        omega
      · intro i h1 h2
        rw [List.getElem_take, List.getElem_drop, List.getElem_map, List.getElem_range]
        have hiN : d + i < N := by
          rw [List.length_take, List.length_drop, List.length_map, List.length_range] at h1
          omega
        have hout : ∀ t ∈ rest, d + i < t.1 ∨ t.1 + t.2 ≤ d + i := by
          intro t ht
          rcases hhead t ht with hc | hc
          · left
            rw [List.length_take, List.length_drop, List.length_map,
              List.length_range] at h1
            omega
          · right
            omega
        rw [runWrites_preserve rest _ _ _ hout]
        unfold writeRun
        have hi : i < sz := by
          rw [List.length_take, List.length_drop, List.length_map,
            List.length_range] at h1
          omega
        have hclen : (input.take sz).length = sz := by
          rw [List.length_take]
          omega
        rw [if_pos (by omega)]
        have hisub : d + i - d = i := by omega
        rw [hisub, List.getD_eq_getElem _ _ (by omega), List.getElem_take]
    rw [hheadeq, htake]

theorem blockStarts_lt {b limit : Nat} (hb : b ∈ blockStarts limit) : b < limit := by
  simp only [blockStarts, List.mem_map, List.mem_range] at hb
  obtain ⟨i, hi, rfl⟩ := hb
  omega

theorem mem_rowsOf {y b limit : Nat} :
    y ∈ rowsOf b limit ↔ b ≤ y ∧ y < min (b + 32) limit := by
  simp only [rowsOf, List.mem_map, List.mem_range]
  constructor
  · rintro ⟨k, hk, rfl⟩
    omega
  · rintro ⟨h1, h2⟩
    exact ⟨y - b, by omega, by omega⟩

theorem blockStarts_pairwise (limit : Nat) :
    List.Pairwise (fun a b => a + 32 ≤ b) (blockStarts limit) := by
  unfold blockStarts
  rw [List.pairwise_map]
  exact List.Pairwise.imp (fun hab => by omega) (List.pairwise_lt_range _)

theorem blockStarts_step (l' : Nat) :
    blockStarts (l' + 32) = 0 :: (blockStarts l').map (fun b => b + 32) := by
  unfold blockStarts
  have h1 : (l' + 32 + 31) / 32 = (l' + 31) / 32 + 1 := by omega
  rw [h1, List.range_succ_eq_map]
  simp only [List.map_cons, List.map_map, Nat.zero_mul]
  congr 1
  apply List.map_congr_left
  intro i _
  simp [Function.comp, Nat.succ_mul, Nat.succ_eq_add_one]

theorem sum_min32 : ∀ limit : Nat,
    ((blockStarts limit).map (fun b => min 32 (limit - b))).sum = limit := by
  intro limit
  induction limit using Nat.strong_induction_on with
  | _ limit ih =>
    by_cases h0 : limit = 0
    · subst h0
      decide
    by_cases h32 : limit ≤ 32
    · have h1 : (limit + 31) / 32 = 1 := by omega
      unfold blockStarts
      rw [h1]
      have hr1 : List.range 1 = [0] := rfl
      rw [hr1]
      simp only [List.map_cons, List.map_nil, List.sum_cons, List.sum_nil,
        Nat.zero_mul, Nat.sub_zero, Nat.add_zero]
      omega
    · obtain ⟨l', rfl⟩ : ∃ l', limit = l' + 32 := ⟨limit - 32, by omega⟩
      rw [blockStarts_step]
      simp only [List.map_cons, List.map_map, List.sum_cons, Nat.sub_zero]
      have hmin : min 32 (l' + 32) = 32 := by omega
      have hcomp : ((blockStarts l').map ((fun b => min 32 (l' + 32 - b)) ∘ (fun b => b + 32))).sum
          = ((blockStarts l').map (fun b => min 32 (l' - b))).sum := by
        congr 1
        apply List.map_congr_left
        intro b _
        simp only [Function.comp]
        congr 1
        omega
      rw [hmin, hcomp, ih l' (by omega)]
      omega

theorem sum_map_const {α : Type} (l : List α) (c : Nat) :
    (l.map fun _ => c).sum = l.length * c := by
  induction l with
  | nil => simp
  | cons a t ih =>
    simp [ih]
    ring

theorem sum_map_flatMap {α β : Type} (l : List α) (f : α → List β) (g : β → Nat) :
    ((l.flatMap f).map g).sum = (l.map (fun a => ((f a).map g).sum)).sum := by
  induction l with
  | nil => simp
  | cons a t ih => simp [ih]

theorem rowsOf_length (b limit : Nat) :
    (rowsOf b limit).length = min (b + 32) limit - b := by
  simp [rowsOf]

theorem segs_sum (width height bpp : Nat) :
    ((segs width height bpp).map Prod.snd).sum = width * height * bpp := by
  unfold segs
  rw [sum_map_flatMap]
  have hinner : ∀ bh ∈ blockStarts height,
      ((((blockStarts width).flatMap fun bw => (rowsOf bh height).map fun y =>
        ((bw + y * width) * bpp, min 32 (width - bw) * bpp)).map Prod.snd)).sum
      = (rowsOf bh height).length * (width * bpp) := by
    intro bh _
    rw [sum_map_flatMap]
    have hbw : ∀ bw ∈ blockStarts width,
        (((rowsOf bh height).map fun y =>
          ((bw + y * width) * bpp, min 32 (width - bw) * bpp)).map Prod.snd).sum
        = (rowsOf bh height).length * (min 32 (width - bw) * bpp) := by
      intro bw _
      rw [List.map_map]
      have : (Prod.snd ∘ fun y : Nat =>
          ((bw + y * width) * bpp, min 32 (width - bw) * bpp))
          = fun _ => min 32 (width - bw) * bpp := rfl
      rw [this, sum_map_const]
    rw [List.map_congr_left hbw]
    have : ((blockStarts width).map fun bw =>
        (rowsOf bh height).length * (min 32 (width - bw) * bpp)).sum
        = (rowsOf bh height).length *
          (((blockStarts width).map fun bw => min 32 (width - bw) * bpp).sum) := by
      induction blockStarts width with
      | nil => simp
      | cons x t iht =>
        simp only [List.map_cons, List.sum_cons, iht]
        ring
    rw [this]
    have : ((blockStarts width).map fun bw => min 32 (width - bw) * bpp).sum
        = (((blockStarts width).map fun bw => min 32 (width - bw)).sum) * bpp := by
      induction blockStarts width with
      | nil => simp
      | cons x t iht =>
        simp only [List.map_cons, List.sum_cons, iht]
        ring
    rw [this, sum_min32]
  rw [List.map_congr_left hinner]
  have : ((blockStarts height).map fun bh => (rowsOf bh height).length * (width * bpp)).sum
      = (((blockStarts height).map fun bh => (rowsOf bh height).length).sum) * (width * bpp) := by
    induction blockStarts height with
    | nil => simp
    | cons x t iht =>
      simp only [List.map_cons, List.sum_cons, iht]
      ring
  rw [this]
  have hrows : ((blockStarts height).map fun bh => (rowsOf bh height).length).sum = height := by
    have hcg : ∀ bh ∈ blockStarts height,
        (rowsOf bh height).length = min 32 (height - bh) := by
      intro bh hbh
      have := blockStarts_lt hbh
      rw [rowsOf_length]
      omega
    rw [List.map_congr_left hcg, sum_min32]
  rw [hrows]
  ring

theorem pairwise_flatMap_of {α β : Type} {R : β → β → Prop} {l : List α}
    {f : α → List β}
    (hin : ∀ a ∈ l, (f a).Pairwise R)
    (hcross : l.Pairwise (fun a a' => ∀ x ∈ f a, ∀ y ∈ f a', R x y)) :
    (l.flatMap f).Pairwise R := by
  induction l with
  | nil => simp
  | cons a t ih =>
    rw [List.flatMap_cons, List.pairwise_append]
    rw [List.pairwise_cons] at hcross
    refine ⟨hin a (by simp), ih (fun x hx => hin x (by simp [hx])) hcross.2, ?_⟩
    intro x hx y hy
    rw [List.mem_flatMap] at hy
    obtain ⟨a', ha', hy'⟩ := hy
    exact hcross.1 a' ha' x hx y hy'

theorem seg_upper (bw y w bpp : Nat) (hbw : bw < w) :
    (bw + y * w) * bpp + min 32 (w - bw) * bpp ≤ (y + 1) * w * bpp := by
  have key : bw + min 32 (w - bw) ≤ w := by omega
  calc (bw + y * w) * bpp + min 32 (w - bw) * bpp
      = (bw + min 32 (w - bw) + y * w) * bpp := by ring
    _ ≤ (w + y * w) * bpp := Nat.mul_le_mul_right _ (Nat.add_le_add_right key _)
    _ = (y + 1) * w * bpp := by ring

theorem seg_cross (bw bw' y w bpp : Nat) (h32 : bw + 32 ≤ bw') :
    (bw + y * w) * bpp + min 32 (w - bw) * bpp ≤ (bw' + y * w) * bpp := by
  have key : bw + min 32 (w - bw) ≤ bw' := by
    have := Nat.min_le_left 32 (w - bw)
    omega
  calc (bw + y * w) * bpp + min 32 (w - bw) * bpp
      = (bw + min 32 (w - bw) + y * w) * bpp := by ring
    _ ≤ (bw' + y * w) * bpp := Nat.mul_le_mul_right _ (Nat.add_le_add_right key _)

theorem row_step (y y' w bpp : Nat) (h : y < y') :
    (y + 1) * w * bpp ≤ y' * w * bpp :=
  Nat.mul_le_mul_right _ (Nat.mul_le_mul_right _ h)

theorem seg_lower (bw y w bpp : Nat) : y * w * bpp ≤ (bw + y * w) * bpp :=
  Nat.mul_le_mul_right _ (Nat.le_add_left _ _)

/-- The destination runs of the deswizzler are pairwise disjoint. -/
theorem segs_pairwise (width height bpp : Nat) :
    List.Pairwise (fun sg t => sg.1 + sg.2 ≤ t.1 ∨ t.1 + t.2 ≤ sg.1)
      (segs width height bpp) := by
  unfold segs
  apply pairwise_flatMap_of
  · intro bh hbh
    apply pairwise_flatMap_of
    · intro bw hbw
      rw [List.pairwise_map]
      have hrows : List.Pairwise (fun y y' => y < y') (rowsOf bh height) := by
        unfold rowsOf
        rw [List.pairwise_map]
        exact List.Pairwise.imp (fun hab => by omega) (List.pairwise_lt_range _)
      refine hrows.imp ?_
      intro y y' hyy
      left
      have hbwlt := blockStarts_lt hbw
      calc (bw + y * width) * bpp + min 32 (width - bw) * bpp
          ≤ (y + 1) * width * bpp := seg_upper _ _ _ _ hbwlt
        _ ≤ y' * width * bpp := row_step _ _ _ _ hyy
        _ ≤ (bw + y' * width) * bpp := seg_lower _ _ _ _
    · refine List.Pairwise.imp_of_mem ?_ (blockStarts_pairwise width)
      intro bw bw' hbwm hbw'm h32 x hx y hy
      rw [List.mem_map] at hx hy
      obtain ⟨y1, hy1, rfl⟩ := hx
      obtain ⟨y2, hy2, rfl⟩ := hy
      rcases Nat.lt_trichotomy y1 y2 with hlt | heq | hgt
      · left
        calc (bw + y1 * width) * bpp + min 32 (width - bw) * bpp
            ≤ (y1 + 1) * width * bpp := seg_upper _ _ _ _ (blockStarts_lt hbwm)
          _ ≤ y2 * width * bpp := row_step _ _ _ _ hlt
          _ ≤ (bw' + y2 * width) * bpp := seg_lower _ _ _ _
      · subst heq
        left
        exact seg_cross _ _ _ _ _ h32
      · right
        calc (bw' + y2 * width) * bpp + min 32 (width - bw') * bpp
            ≤ (y2 + 1) * width * bpp := seg_upper _ _ _ _ (blockStarts_lt hbw'm)
          _ ≤ y1 * width * bpp := row_step _ _ _ _ hgt
          _ ≤ (bw + y1 * width) * bpp := seg_lower _ _ _ _
  · refine List.Pairwise.imp_of_mem ?_ (blockStarts_pairwise height)
    intro bh bh' hbhm hbh'm h32 x hx y hy
    rw [List.mem_flatMap] at hx hy
    obtain ⟨bw, hbwm, hx⟩ := hx
    obtain ⟨bw', hbw'm, hy⟩ := hy
    rw [List.mem_map] at hx hy
    obtain ⟨y1, hy1, rfl⟩ := hx
    obtain ⟨y2, hy2, rfl⟩ := hy
    rw [mem_rowsOf] at hy1 hy2
    have hlt : y1 < y2 := by omega
    left
    calc (bw + y1 * width) * bpp + min 32 (width - bw) * bpp
        ≤ (y1 + 1) * width * bpp := seg_upper _ _ _ _ (blockStarts_lt hbwm)
      _ ≤ y2 * width * bpp := row_step _ _ _ _ hlt
      _ ≤ (bw' + y2 * width) * bpp := seg_lower _ _ _ _

/-- Every destination run of the deswizzler lies inside the
`width * height * bpp` output buffer. -/
theorem segs_bounds (width height bpp : Nat) :
    ∀ sg ∈ segs width height bpp, sg.1 + sg.2 ≤ width * height * bpp := by
  intro sg hsg
  unfold segs at hsg
  rw [List.mem_flatMap] at hsg
  obtain ⟨bh, hbh, hsg⟩ := hsg
  rw [List.mem_flatMap] at hsg
  obtain ⟨bw, hbw, hsg⟩ := hsg
  rw [List.mem_map] at hsg
  obtain ⟨y, hy, rfl⟩ := hsg
  rw [mem_rowsOf] at hy
  have hbhlt := blockStarts_lt hbh
  have hylt : y < height := by omega
  calc (bw + y * width) * bpp + min 32 (width - bw) * bpp
      ≤ (y + 1) * width * bpp := seg_upper _ _ _ _ (blockStarts_lt hbw)
    _ ≤ height * width * bpp :=
        Nat.mul_le_mul_right _ (Nat.mul_le_mul_right _ (by omega))
    _ = width * height * bpp := by ring

/-- C8: deswizzling the 32x32-block-major layout and then reswizzling with
the same `(width, height, bytes_per_pixel)` is the identity on every input
buffer of length `width * height * bytes_per_pixel`. -/
theorem deswizzle_reswizzle_id (width height bpp : Nat) (input : List Nat)
    (hlen : input.length = width * height * bpp) :
    reswizzle width height bpp (deswizzle width height bpp input) = input := by
  unfold reswizzle deswizzle Reader.ofBytes
  have hsum := segs_sum width height bpp
  have heq := runReads_eq_runWrites (segs width height bpp) input 0
    ((input.length : Int)) 0 (fun _ => 0) (by omega)
  simp only [List.drop_zero] at heq
  rw [heq]
  exact runWrites_roundtrip (width * height * bpp) (segs width height bpp) input _
    (segs_pairwise _ _ _) (by rw [hsum, hlen]) (segs_bounds _ _ _)

/-- C8 witness: round trip on a concrete 2x1 single-byte-per-pixel buffer. -/
theorem deswizzle_reswizzle_id_witness :
    ([5, 7] : List Nat).length = 2 * 1 * 1
    ∧ reswizzle 2 1 1 (deswizzle 2 1 1 [5, 7]) = [5, 7] :=
  ⟨rfl, deswizzle_reswizzle_id 2 1 1 [5, 7] rfl⟩
